import Mathlib

set_option maxRecDepth 8192

/-!
Shallow embedding of the SVSM stage-2 loader sources `src/fw_cfg.rs` and
`src/stage2.rs`.

The fw_cfg device is modelled as a function from a selector to the byte
stream of that item (`dev : Nat → List Nat`); selecting an item resets the
data stream to offset 0, and each read consumes bytes from the front of the
currently selected stream, exactly as the sequential `inb` reads on the data
port do.  Bytes are naturals; `inb` truncates to a `u8` with `% 256`.
Machine integers (`u32`, `u64`, `usize`) are naturals, and every operation
that can overflow a 64-bit integer is modelled with the release-mode
wrapping semantics, written out as explicit `% 2^64` arithmetic: the
`u64` sites in `fw_cfg.rs` (`start + size` and
`region.end - KERNEL_REGION_SIZE`) and the `usize` address increments
`paddr/vaddr/kaddr += 4096` in the loops of `stage2.rs`.

The external collaborators of `stage2.rs` (`pgtable.map_4k`,
`validate_page_msr`, `pvalidate`) are oracles passed in as parameters, and
the loops additionally return the trace of calls they issue, so that call
order and fail-fast behaviour are visible in the model.  Because the
wrapped `paddr` can step past the `paddr >= pend` bound check, those loops
can genuinely diverge; they are therefore embedded fuel-indexed: the fuel
bounds the number of loop iterations, the result component is `none` while
the loop is still running after that many iterations, and the trace
component lists the calls issued so far.
-/

/-- Models `io.inb(FW_CFG_DATA)`: take one byte (a `u8`, hence `% 256`) off
the front of the currently selected data stream. -/
def inb (s : List Nat) : Nat × List Nat :=
  ((s.headD 0) % 256, s.tail)

/-- Loop body of `FwCfg::read_le`: for `i` in `0..n`,
`val = (byte << (i * 8)) | val`. -/
def read_le_go : Nat → Nat → Nat → List Nat → Nat × List Nat
  | 0, _, val, s => (val, s)
  | n + 1, i, val, s =>
    let p := inb s
    read_le_go n (i + 1) ((p.1 <<< (i * 8)) ||| val) p.2

/-- Embeds `FwCfg::read_le::<T>` where `n = size_of::<T>()`: reads `n` bytes
little-endian from the data stream. -/
def read_le (n : Nat) (s : List Nat) : Nat × List Nat :=
  read_le_go n 0 0 s

/-- Loop body of `FwCfg::read_be`: `val = (val << 8) | byte`, `n` times. -/
def read_be_go : Nat → Nat → List Nat → Nat × List Nat
  | 0, val, s => (val, s)
  | n + 1, val, s =>
    let p := inb s
    read_be_go n ((val <<< 8) ||| p.1) p.2

/-- Embeds `FwCfg::read_be::<T>` where `n = size_of::<T>()`: reads `n` bytes
big-endian from the data stream. -/
def read_be (n : Nat) (s : List Nat) : Nat × List Nat :=
  read_be_go n 0 s

/-- Embeds the `for _i in 0..56 { fs.push(self.read_char()) }` loop of
`FwCfg::file_selector`: reads `n` raw bytes (characters) off the stream. -/
def read_bytes : Nat → List Nat → List Nat × List Nat
  | 0, s => ([], s)
  | n + 1, s =>
    let p := inb s
    let q := read_bytes n p.2
    (p.1 :: q.1, q.2)

/-- Value whose little-endian encoding is the given byte sequence (byte `i`
contributes at bit position `8*i`).  This follows the spec's words and is
the reference against which `read_le` is compared. -/
def leVal : List Nat → Nat
  | [] => 0
  | b :: bs => b + 256 * leVal bs

/-- Value whose big-endian encoding is the given byte sequence (first byte
is most significant).  This follows the spec's words and is the reference
against which `read_be` is compared. -/
def beVal (bs : List Nat) : Nat :=
  bs.foldl (fun v b => 256 * v + b) 0

/-- Little-endian encoding of `v` on `n` bytes (used to build concrete
device streams for the theorems). -/
def le_bytes : Nat → Nat → List Nat
  | 0, _ => []
  | n + 1, v => (v % 256) :: le_bytes n (v / 256)

/-- Big-endian encoding of `v` on `n` bytes. -/
def be_bytes (n v : Nat) : List Nat :=
  (le_bytes n v).reverse

/-- Trailing NUL padding of a fixed-length name field. -/
def strip_padding (l : List Nat) : List Nat :=
  (l.reverse.dropWhile (· == 0)).reverse

/-- Modelled from the spec: `FixedString::<56>::equal_str` lives in
`src/string.rs`, which is not among the provided sources.  Per the spec,
name comparison is "exact, case-sensitive, padding-insensitive": the
56-byte name field equals the query after stripping trailing padding. -/
def equal_str (field query : List Nat) : Bool :=
  strip_padding field == query

/-- Embeds the constant `FW_CFG_ID`. -/
def FW_CFG_ID : Nat := 0x01

/-- Embeds the constant `FW_CFG_FILE_DIR`. -/
def FW_CFG_FILE_DIR : Nat := 0x19

/-- Embeds `struct FwCfgFile`. -/
structure FwCfgFile where
  size : Nat
  selector : Nat
deriving DecidableEq, Repr

/-- Embeds the `while n != 0` directory-scan loop of
`FwCfg::file_selector`: each iteration reads one record
`(size:u32 be, selector:u16 be, unused:u16 be, name:56 bytes)` and returns
the first record whose name matches the query; `Err(())` once `n` reaches
zero. -/
def fs_loop : Nat → List Nat → List Nat → Except Unit FwCfgFile
  | 0, _, _ => .error ()
  | n + 1, s, q =>
    let psize := read_be 4 s
    let psel := read_be 2 psize.2
    let punused := read_be 2 psel.2
    let pname := read_bytes 56 punused.2
    if equal_str pname.1 q then .ok ⟨psize.1, psel.1⟩
    else fs_loop n pname.2 q

/-- Embeds `FwCfg::file_selector`: select `FW_CFG_ID` and read (and drop) a
little-endian `u32` version, select `FW_CFG_FILE_DIR`, read a big-endian
`u32` count, then scan that many directory records. -/
def file_selector (dev : Nat → List Nat) (q : List Nat) : Except Unit FwCfgFile :=
  let _version := (read_le 4 (dev FW_CFG_ID)).1
  let p := read_be 4 (dev FW_CFG_FILE_DIR)
  fs_loop p.1 p.2 q

/-- Embeds `pub struct KernelRegion` (`end` is a Lean keyword, hence
`end_`). -/
structure KernelRegion where
  start : Nat
  end_ : Nat
deriving DecidableEq, Repr

/-- Embeds `KERNEL_REGION_SIZE = 16 * 1024 * 1024`. -/
def KERNEL_REGION_SIZE : Nat := 16 * 1024 * 1024

/-- Embeds `KERNEL_REGION_SIZE_MASK = !(KERNEL_REGION_SIZE - 1)`: the `u64`
complement of `x` is `2^64 - 1 - x`. -/
def KERNEL_REGION_SIZE_MASK : Nat := (2 ^ 64 - 1) - (KERNEL_REGION_SIZE - 1)

/-- Embeds `struct` fields of one E820 entry as read in
`FwCfg::find_kernel_region` (`start:u64 le, size:u64 le, type:u32 le`). -/
structure E820 where
  start : Nat
  size : Nat
  typ : Nat
deriving DecidableEq, Repr

instance : Inhabited E820 := ⟨⟨0, 0, 0⟩⟩

/-- Embeds the body of the entry loop of `FwCfg::find_kernel_region`:
`if (t == 1) && (start >= region.start) { region.start = start;
region.end = start + size; }`, with the `u64` addition wrapping. -/
def e820_step (r : KernelRegion) (e : E820) : KernelRegion :=
  if e.typ = 1 ∧ r.start ≤ e.start then ⟨e.start, (e.start + e.size) % 2 ^ 64⟩
  else r

/-- Embeds the `for _i in 0..entries` loop of `FwCfg::find_kernel_region`:
each iteration reads `start:u64 le`, `size:u64 le`, `type:u32 le` from the
stream and applies `e820_step`. -/
def fkr_loop : Nat → List Nat → KernelRegion → KernelRegion
  | 0, _, r => r
  | n + 1, s, r =>
    let p1 := read_le 8 s
    let p2 := read_le 8 p1.2
    let p3 := read_le 4 p2.2
    fkr_loop n p3.2 (e820_step r ⟨p1.1, p2.1, p3.1⟩)

/-- Embeds `let start = (region.end - KERNEL_REGION_SIZE) &
KERNEL_REGION_SIZE_MASK` with the `u64` subtraction wrapping. -/
def aligned_start (r : KernelRegion) : Nat :=
  ((r.end_ + (2 ^ 64 - KERNEL_REGION_SIZE)) % 2 ^ 64) &&& KERNEL_REGION_SIZE_MASK

/-- Embeds the tail of `FwCfg::find_kernel_region` after the entry scan:
fail if the aligned start falls below the scanned region start, otherwise
replace the start. -/
def finalize_region (r : KernelRegion) : Except Unit KernelRegion :=
  if aligned_start r < r.start then .error ()
  else .ok ⟨aligned_start r, r.end_⟩

/-- Byte string "etc/e820", the file name requested by
`FwCfg::find_kernel_region`. -/
def etc_e820_name : List Nat := [101, 116, 99, 47, 101, 56, 50, 48]

/-- Embeds `FwCfg::find_kernel_region`: locate "etc/e820", select its
selector, scan `file.size / 20` entries, then align and check. -/
def find_kernel_region (dev : Nat → List Nat) : Except Unit KernelRegion :=
  match file_selector dev etc_e820_name with
  | .error e => .error e
  | .ok file =>
    finalize_region (fkr_loop (file.size / 20) (dev file.selector) ⟨0, 0⟩)

/-- One directory record as laid out on the wire (name is the full 56-byte
padded field). -/
structure DirRec where
  size : Nat
  selector : Nat
  name : List Nat
deriving DecidableEq, Repr

instance : Inhabited DirRec := ⟨⟨0, 0, []⟩⟩

/-- Wire encoding of one directory record:
`size:u32 be, selector:u16 be, unused:u16 be, name:56 bytes`. -/
def encodeRec (r : DirRec) : List Nat :=
  be_bytes 4 r.size ++ be_bytes 2 r.selector ++ be_bytes 2 0 ++ r.name

/-- Well-formedness of a directory listing: fields fit their wire widths
and names are full 56-byte fields. -/
def DirWf (recs : List DirRec) : Prop :=
  recs.length < 2 ^ 32 ∧
    ∀ r ∈ recs, r.size < 2 ^ 32 ∧ r.selector < 2 ^ 16 ∧
      r.name.length = 56 ∧ ∀ b ∈ r.name, b < 256

/-- Wire encoding of one E820 entry (`start:u64 le, size:u64 le,
type:u32 le`, 20 bytes). -/
def encode_e820 (e : E820) : List Nat :=
  le_bytes 8 e.start ++ le_bytes 8 e.size ++ le_bytes 4 e.typ

/-- Well-formedness of an E820 entry sequence: fields fit their wire widths
and the file size `20 * length` fits in a `u32`. -/
def E820wf (es : List E820) : Prop :=
  es.length < 2 ^ 27 ∧
    ∀ e ∈ es, e.start < 2 ^ 64 ∧ e.size < 2 ^ 64 ∧ e.typ < 2 ^ 32

/-- Selector assigned to the "etc/e820" file in the synthetic devices used
by the theorems (any value other than `FW_CFG_ID` and `FW_CFG_FILE_DIR`). -/
def E820_SELECTOR : Nat := 0xc0

/-- Full 56-byte padded name field for "etc/e820". -/
def etc_e820_padded : List Nat := etc_e820_name ++ List.replicate 48 0

/-- Synthetic fw_cfg device exposing exactly one file, "etc/e820", whose
payload is the wire encoding of the given E820 entries. -/
def mkDevice (es : List E820) : Nat → List Nat := fun sel =>
  if sel = FW_CFG_ID then le_bytes 4 0
  else if sel = FW_CFG_FILE_DIR then
    be_bytes 4 1 ++ encodeRec ⟨20 * es.length, E820_SELECTOR, etc_e820_padded⟩
  else if sel = E820_SELECTOR then (es.map encode_e820).flatten
  else []

/-- Running region after scanning an entry list (pure view of the
`fkr_loop` scan, used to state properties of the scan). -/
def scan_e820 (es : List E820) : KernelRegion :=
  es.foldl e820_step ⟨0, 0⟩

/-- Running region just before entry `k` is processed. -/
def regionAt (es : List E820) (k : Nat) : KernelRegion :=
  (es.take k).foldl e820_step ⟨0, 0⟩

/-- Entry `k` qualifies during the scan: its type is 1 and its start is at
or above the running region's start at that point. -/
def qualifies (es : List E820) (k : Nat) : Prop :=
  (es.getD k default).typ = 1 ∧ (regionAt es k).start ≤ (es.getD k default).start

instance (es : List E820) (k : Nat) : Decidable (qualifies es k) := by
  unfold qualifies
  infer_instance

/-- Embeds `KERNEL_VIRT_ADDR`. -/
def KERNEL_VIRT_ADDR : Nat := 0xffffff8000000000

/-- Page-table entry flags used by `map_memory` (the flag type itself is an
external collaborator; only the four named flags are needed here). -/
inductive PTFlag where
  | PRESENT
  | WRITABLE
  | ACCESSED
  | DIRTY
deriving DecidableEq, Repr

/-- Embeds `let flags = PTEntryFlags::PRESENT | PTEntryFlags::WRITABLE |
PTEntryFlags::ACCESSED | PTEntryFlags::DIRTY` in `map_memory`. -/
def map_flags : List PTFlag := [.PRESENT, .WRITABLE, .ACCESSED, .DIRTY]

/-- One call to the external `pgtable.map_4k(vaddr, paddr, flags)`. -/
structure MapCall where
  vaddr : Nat
  paddr : Nat
  flags : List PTFlag
deriving DecidableEq, Repr

/-- Embeds `map_memory`: the oracle `map4k` models the external
`pgtable.map_4k` (true = `Ok`).  The `usize` increments `paddr += 4096` and
`vaddr += 4096` wrap at `2^64` (release semantics), so the wrapped `paddr`
can step past the `paddr >= pend` check and the loop can genuinely diverge;
the embedding is therefore indexed by a fuel bounding the number of loop
iterations.  The first component lists the `map_4k` calls issued so far, in
order; the second is `some r` when the loop finishes with result `r`
within the fuel and `none` while it is still running.  The bound is only
checked after a page has been mapped, exactly as in the source loop. -/
def map_memory (map4k : Nat → Nat → List PTFlag → Bool) :
    Nat → Nat → Nat → Nat → List MapCall × Option (Except Unit Unit)
  | 0, _, _, _ => ([], none)
  | fuel + 1, paddr, pend, vaddr =>
    if map4k vaddr paddr map_flags = false then
      ([⟨vaddr, paddr, map_flags⟩], some (.error ()))
    else
      let paddr2 := (paddr + 4096) % 2 ^ 64
      let vaddr2 := (vaddr + 4096) % 2 ^ 64
      if pend ≤ paddr2 then ([⟨vaddr, paddr, map_flags⟩], some (.ok ()))
      else
        let r := map_memory map4k fuel paddr2 pend vaddr2
        (⟨vaddr, paddr, map_flags⟩ :: r.1, r.2)

/-- Embeds `map_kernel_region` (fuel-indexed like `map_memory`). -/
def map_kernel_region (map4k : Nat → Nat → List PTFlag → Bool) (fuel : Nat)
    (region : KernelRegion) : List MapCall × Option (Except Unit Unit) :=
  map_memory map4k fuel region.start region.end_ KERNEL_VIRT_ADDR

/-- One call issued by `validate_kernel_region`: either the external
`validate_page_msr(paddr)` or the external `pvalidate(vaddr, huge, valid)`. -/
inductive VEvent where
  | msr (paddr : Nat)
  | pval (vaddr : Nat) (huge : Bool) (valid : Bool)
deriving DecidableEq, Repr

/-- Embeds the loop of `validate_kernel_region`: per page first
`validate_page_msr(paddr)` (oracle `mok`), then
`pvalidate(kaddr, false, true)` (oracle `pok`); either failure returns
immediately; the bound is checked after both calls succeeded.  The `usize`
increments wrap at `2^64` (release semantics), so the loop can genuinely
diverge; the embedding is fuel-indexed exactly like `map_memory`. -/
def validate_loop (mok : Nat → Bool) (pok : Nat → Bool → Bool → Bool) :
    Nat → Nat → Nat → Nat → List VEvent × Option (Except Unit Unit)
  | 0, _, _, _ => ([], none)
  | fuel + 1, kaddr, paddr, pend =>
    if mok paddr = false then ([.msr paddr], some (.error ()))
    else if pok kaddr false true = false then
      ([.msr paddr, .pval kaddr false true], some (.error ()))
    else
      let kaddr2 := (kaddr + 4096) % 2 ^ 64
      let paddr2 := (paddr + 4096) % 2 ^ 64
      if pend ≤ paddr2 then
        ([.msr paddr, .pval kaddr false true], some (.ok ()))
      else
        let r := validate_loop mok pok fuel kaddr2 paddr2 pend
        (.msr paddr :: .pval kaddr false true :: r.1, r.2)

/-- Embeds `validate_kernel_region` (fuel-indexed like `validate_loop`). -/
def validate_kernel_region (mok : Nat → Bool) (pok : Nat → Bool → Bool → Bool)
    (fuel : Nat) (region : KernelRegion) :
    List VEvent × Option (Except Unit Unit) :=
  validate_loop mok pok fuel KERNEL_VIRT_ADDR region.start region.end_

/-- Number of 4 KiB pages the loops of `stage2.rs` cover for a physical
range `[pstart, pend)`: the ceiling of `(pend - pstart) / 4096`. -/
def pages (pstart pend : Nat) : Nat :=
  (pend - pstart + 4095) / 4096

/-- Expected trace of `map_memory` over `m` consecutive pages: physical
addresses are consecutive, virtual addresses wrap at `2^64` as the `usize`
increment does. -/
def mapTrace (vbase pbase m : Nat) : List MapCall :=
  (List.range m).map fun i =>
    ⟨(vbase + 4096 * i) % 2 ^ 64, pbase + 4096 * i, map_flags⟩

/-- Expected trace of `validate_kernel_region` over `m` fully validated
consecutive pages: per page the MSR request on the physical address,
followed by the pvalidate on the (2^64-wrapped) virtual address. -/
def valTrace (kbase pbase m : Nat) : List VEvent :=
  ((List.range m).map fun i =>
    [VEvent.msr (pbase + 4096 * i),
      VEvent.pval ((kbase + 4096 * i) % 2 ^ 64) false true]).flatten

/-! Helper lemmas: bit arithmetic. -/

theorem testBit_add_shiftLeft_low (b n a i : Nat) (h : a < 2 ^ n) (hi : i < n) :
    (b <<< n + a).testBit i = a.testBit i := by
  have hmod : (b <<< n + a) % 2 ^ n = a := by
    rw [Nat.shiftLeft_eq, Nat.mul_comm b, Nat.mul_add_mod, Nat.mod_eq_of_lt h]
  calc (b <<< n + a).testBit i
      = ((b <<< n + a) % 2 ^ n).testBit i := by
        rw [Nat.testBit_mod_two_pow]
        simp [hi]
    _ = a.testBit i := by rw [hmod]

theorem testBit_add_shiftLeft_high (b n a i : Nat) (h : a < 2 ^ n) (hi : n ≤ i) :
    (b <<< n + a).testBit i = b.testBit (i - n) := by
  have hdiv : (b <<< n + a) / 2 ^ n = b := by
    rw [Nat.shiftLeft_eq, Nat.mul_comm b,
      Nat.mul_add_div (Nat.pos_pow_of_pos n (by norm_num)), Nat.div_eq_of_lt h,
      Nat.add_zero]
  have h2 := Nat.testBit_shiftRight (i := n) (j := i - n) (b <<< n + a)
  rw [Nat.shiftRight_eq_div_pow, hdiv, Nat.add_sub_cancel' hi] at h2
  exact h2.symm

theorem lor_shiftLeft_eq_add (b n a : Nat) (h : a < 2 ^ n) :
    (b <<< n) ||| a = b <<< n + a := by
  apply Nat.eq_of_testBit_eq
  intro i
  rw [Nat.testBit_lor]
  rcases Nat.lt_or_ge i n with hi | hi
  · rw [testBit_add_shiftLeft_low b n a i h hi]
    have hb : (b <<< n).testBit i = false := by
      rw [Nat.testBit_shiftLeft]
      simp [Nat.not_le.mpr hi]
    rw [hb, Bool.false_or]
  · rw [testBit_add_shiftLeft_high b n a i h hi]
    have ha : a.testBit i = false :=
      Nat.testBit_lt_two_pow
        (lt_of_lt_of_le h (Nat.pow_le_pow_right (by norm_num) hi))
    rw [Nat.testBit_shiftLeft, ha, Bool.or_false]
    simp [hi]

theorem land_mask_eq (x : Nat) (hx : x < 2 ^ 64) :
    x &&& KERNEL_REGION_SIZE_MASK = 2 ^ 24 * (x / 2 ^ 24) := by
  have hm : KERNEL_REGION_SIZE_MASK = (2 ^ 40 - 1) <<< 24 := by
    norm_num [KERNEL_REGION_SIZE_MASK, KERNEL_REGION_SIZE, Nat.shiftLeft_eq]
  have hr : 2 ^ 24 * (x / 2 ^ 24) = (x >>> 24) <<< 24 := by
    rw [Nat.shiftRight_eq_div_pow, Nat.shiftLeft_eq]
    ring
  rw [hm, hr]
  apply Nat.eq_of_testBit_eq
  intro i
  rw [Nat.testBit_land, Nat.testBit_shiftLeft, Nat.testBit_shiftLeft,
    Nat.testBit_shiftRight, Nat.testBit_two_pow_sub_one]
  rcases Nat.lt_or_ge i 24 with h24 | h24
  · simp [Nat.not_le.mpr h24]
  · rcases Nat.lt_or_ge i 64 with h64 | h64
    · simp [h24, Nat.add_sub_cancel' h24, show i - 24 < 40 by omega]
    · have hxf : x.testBit i = false :=
        Nat.testBit_lt_two_pow
          (lt_of_lt_of_le hx (Nat.pow_le_pow_right (by norm_num) h64))
      have hxf' : x.testBit (24 + (i - 24)) = false := by
        rw [Nat.add_sub_cancel' h24]
        exact hxf
      simp [hxf, hxf', show ¬(i - 24 < 40) by omega]

/-! Helper lemmas: reading encoded byte sequences. -/

theorem read_le_go_append (bs : List Nat) : ∀ (rest : List Nat) (i val : Nat),
    (∀ b ∈ bs, b < 256) → val < 2 ^ (i * 8) →
    read_le_go bs.length i val (bs ++ rest) = (val + 2 ^ (i * 8) * leVal bs, rest) := by
  induction bs with
  | nil =>
    intro rest i val _ _
    simp [read_le_go, leVal]
  | cons b bs ih =>
    intro rest i val hb hval
    have hblt : b < 256 := hb b (List.mem_cons_self b bs)
    have hbs : ∀ x ∈ bs, x < 256 := fun x hx => hb x (List.mem_cons_of_mem b hx)
    have hstep : (b <<< (i * 8)) ||| val = b <<< (i * 8) + val :=
      lor_shiftLeft_eq_add b (i * 8) val hval
    have hpow : (2 : Nat) ^ ((i + 1) * 8) = 2 ^ (i * 8) * 256 := by
      rw [show (i + 1) * 8 = i * 8 + 8 by ring, pow_add]
      norm_num
    have hbound : b <<< (i * 8) + val < 2 ^ ((i + 1) * 8) := by
      rw [Nat.shiftLeft_eq, hpow]
      have h1 : b * 2 ^ (i * 8) + val < (b + 1) * 2 ^ (i * 8) := by
        have := hval
        nlinarith [Nat.pos_pow_of_pos (i * 8) (show 0 < 2 by norm_num)]
      have h2 : (b + 1) * 2 ^ (i * 8) ≤ 256 * 2 ^ (i * 8) := by
        have : b + 1 ≤ 256 := by omega
        exact Nat.mul_le_mul_right _ this
      calc b * 2 ^ (i * 8) + val < (b + 1) * 2 ^ (i * 8) := h1
        _ ≤ 256 * 2 ^ (i * 8) := h2
        _ = 2 ^ (i * 8) * 256 := by ring
    show read_le_go (bs.length + 1) i val ((b :: bs) ++ rest) = _
    simp only [read_le_go, List.cons_append, inb, List.headD, List.tail_cons,
      Nat.mod_eq_of_lt hblt]
    rw [hstep, ih rest (i + 1) (b <<< (i * 8) + val) hbs hbound]
    rw [Nat.shiftLeft_eq, hpow]
    simp only [leVal]
    ring_nf

theorem read_le_append (bs rest : List Nat) (h : ∀ b ∈ bs, b < 256) :
    read_le bs.length (bs ++ rest) = (leVal bs, rest) := by
  unfold read_le
  rw [read_le_go_append bs rest 0 0 h (by norm_num)]
  simp

theorem read_be_go_append (bs : List Nat) : ∀ (rest : List Nat) (val : Nat),
    (∀ b ∈ bs, b < 256) →
    read_be_go bs.length val (bs ++ rest) =
      (bs.foldl (fun v b => 256 * v + b) val, rest) := by
  induction bs with
  | nil =>
    intro rest val _
    simp [read_be_go]
  | cons b bs ih =>
    intro rest val hb
    have hblt : b < 256 := hb b (List.mem_cons_self b bs)
    have hbs : ∀ x ∈ bs, x < 256 := fun x hx => hb x (List.mem_cons_of_mem b hx)
    have hstep : (val <<< 8) ||| (b % 256) = 256 * val + b := by
      rw [Nat.mod_eq_of_lt hblt, lor_shiftLeft_eq_add val 8 b hblt,
        Nat.shiftLeft_eq]
      ring
    show read_be_go (bs.length + 1) val ((b :: bs) ++ rest) = _
    simp only [read_be_go, List.cons_append, inb, List.headD, List.tail_cons]
    rw [hstep, ih rest (256 * val + b) hbs]
    simp [List.foldl_cons]

theorem read_be_append (bs rest : List Nat) (h : ∀ b ∈ bs, b < 256) :
    read_be bs.length (bs ++ rest) = (beVal bs, rest) := by
  unfold read_be beVal
  exact read_be_go_append bs rest 0 h

theorem read_bytes_append (bs rest : List Nat) (h : ∀ b ∈ bs, b < 256) :
    read_bytes bs.length (bs ++ rest) = (bs, rest) := by
  induction bs with
  | nil => simp [read_bytes]
  | cons b bs ih =>
    have hblt : b < 256 := h b (List.mem_cons_self b bs)
    have hbs : ∀ x ∈ bs, x < 256 := fun x hx => h x (List.mem_cons_of_mem b hx)
    show read_bytes (bs.length + 1) ((b :: bs) ++ rest) = _
    simp only [read_bytes, List.cons_append, inb, List.headD, List.tail_cons,
      Nat.mod_eq_of_lt hblt]
    rw [ih hbs]

theorem le_bytes_length (n : Nat) : ∀ v, (le_bytes n v).length = n := by
  induction n with
  | zero => intro v; rfl
  | succ n ih => intro v; simp [le_bytes, ih]

theorem le_bytes_lt (n : Nat) : ∀ v, ∀ b ∈ le_bytes n v, b < 256 := by
  induction n with
  | zero => intro v b hb; simp [le_bytes] at hb
  | succ n ih =>
    intro v b hb
    simp only [le_bytes, List.mem_cons] at hb
    rcases hb with rfl | hb
    · exact Nat.mod_lt _ (by norm_num)
    · exact ih (v / 256) b hb

theorem leVal_le_bytes (n : Nat) : ∀ v, v < 2 ^ (n * 8) →
    leVal (le_bytes n v) = v := by
  induction n with
  | zero => intro v hv; interval_cases v; rfl
  | succ n ih =>
    intro v hv
    have hdiv : v / 256 < 2 ^ (n * 8) := by
      rw [Nat.div_lt_iff_lt_mul (by norm_num : (0:Nat) < 256)]
      calc v < 2 ^ ((n + 1) * 8) := hv
        _ = 2 ^ (n * 8) * 256 := by
          rw [show (n + 1) * 8 = n * 8 + 8 by ring, pow_add]
          norm_num
    simp only [le_bytes, leVal, ih (v / 256) hdiv]
    omega

theorem beVal_reverse (l : List Nat) : beVal l.reverse = leVal l := by
  induction l with
  | nil => rfl
  | cons b l ih =>
    simp only [List.reverse_cons, leVal]
    unfold beVal
    rw [List.foldl_append]
    simp only [List.foldl_cons, List.foldl_nil]
    unfold beVal at ih
    omega

theorem be_bytes_length (n v : Nat) : (be_bytes n v).length = n := by
  unfold be_bytes
  rw [List.length_reverse, le_bytes_length]

theorem be_bytes_lt (n v : Nat) : ∀ b ∈ be_bytes n v, b < 256 := by
  intro b hb
  unfold be_bytes at hb
  rw [List.mem_reverse] at hb
  exact le_bytes_lt n v b hb

theorem beVal_be_bytes (n v : Nat) (hv : v < 2 ^ (n * 8)) :
    beVal (be_bytes n v) = v := by
  unfold be_bytes
  rw [beVal_reverse, leVal_le_bytes n v hv]

theorem read_le_encode (n v : Nat) (rest : List Nat) (hv : v < 2 ^ (n * 8)) :
    read_le n (le_bytes n v ++ rest) = (v, rest) := by
  have h1 := read_le_append (le_bytes n v) rest (le_bytes_lt n v)
  rw [le_bytes_length, leVal_le_bytes n v hv] at h1
  exact h1

theorem read_be_encode (n v : Nat) (rest : List Nat) (hv : v < 2 ^ (n * 8)) :
    read_be n (be_bytes n v ++ rest) = (v, rest) := by
  have h1 := read_be_append (be_bytes n v) rest (be_bytes_lt n v)
  rw [be_bytes_length, beVal_be_bytes n v hv] at h1
  exact h1

instance (recs : List DirRec) : Decidable (DirWf recs) := by
  unfold DirWf
  infer_instance

instance (es : List E820) : Decidable (E820wf es) := by
  unfold E820wf
  infer_instance

/-! Helper lemmas: the directory scan of `file_selector`. -/

theorem fs_loop_cons (r : DirRec) (n : Nat) (s q : List Nat)
    (h1 : r.size < 2 ^ 32) (h2 : r.selector < 2 ^ 16)
    (h3 : r.name.length = 56) (h4 : ∀ b ∈ r.name, b < 256) :
    fs_loop (n + 1) (encodeRec r ++ s) q =
      if equal_str r.name q then .ok ⟨r.size, r.selector⟩ else fs_loop n s q := by
  have hsz : r.size < 2 ^ (4 * 8) := by simpa using h1
  have hsel : r.selector < 2 ^ (2 * 8) := by simpa using h2
  have hz : (0 : Nat) < 2 ^ (2 * 8) := by norm_num
  have hname : read_bytes 56 (r.name ++ s) = (r.name, s) := by
    have h := read_bytes_append r.name s h4
    rwa [h3] at h
  have hs : encodeRec r ++ s =
      be_bytes 4 r.size ++ (be_bytes 2 r.selector ++ (be_bytes 2 0 ++ (r.name ++ s))) := by
    simp [encodeRec, List.append_assoc]
  rw [hs]
  simp only [fs_loop, read_be_encode 4 r.size _ hsz,
    read_be_encode 2 r.selector _ hsel, read_be_encode 2 0 _ hz, hname]

theorem fs_loop_first_match :
    ∀ (recs : List DirRec) (j : Nat) (q tail : List Nat),
    (∀ r ∈ recs, r.size < 2 ^ 32 ∧ r.selector < 2 ^ 16 ∧
      r.name.length = 56 ∧ ∀ b ∈ r.name, b < 256) →
    j < recs.length →
    equal_str (recs.getD j default).name q = true →
    (∀ i, i < j → equal_str (recs.getD i default).name q = false) →
    fs_loop recs.length (((recs.take (j + 1)).map encodeRec).flatten ++ tail) q =
      .ok ⟨(recs.getD j default).size, (recs.getD j default).selector⟩ := by
  intro recs
  induction recs with
  | nil =>
    intro j q tail _ hj _ _
    simp at hj
  | cons r rest ih =>
    intro j q tail hwf hj hm hprev
    obtain ⟨hs, hse, hn, hb⟩ := hwf r (List.mem_cons_self r rest)
    cases j with
    | zero =>
      rw [show (1 : Nat) = 0 + 1 from rfl, List.take_succ_cons]
      simp only [List.take_zero, List.map_cons, List.map_nil, List.flatten_cons,
        List.flatten_nil, List.append_nil, List.length_cons]
      rw [fs_loop_cons r rest.length tail q hs hse hn hb]
      rw [List.getD_cons_zero] at hm
      simp [hm, List.getD_cons_zero]
    | succ j =>
      rw [List.take_succ_cons]
      simp only [List.map_cons, List.flatten_cons, List.length_cons,
        List.append_assoc]
      rw [fs_loop_cons r rest.length _ q hs hse hn hb]
      have h0 : equal_str r.name q = false := by
        have := hprev 0 (Nat.succ_pos j)
        rwa [List.getD_cons_zero] at this
      rw [h0]
      simp only [Bool.false_eq_true, if_false]
      rw [List.getD_cons_succ] at hm
      have hprev' : ∀ i, i < j → equal_str (rest.getD i default).name q = false := by
        intro i hi
        have := hprev (i + 1) (Nat.succ_lt_succ hi)
        rwa [List.getD_cons_succ] at this
      have hwf' : ∀ x ∈ rest, x.size < 2 ^ 32 ∧ x.selector < 2 ^ 16 ∧
          x.name.length = 56 ∧ ∀ b ∈ x.name, b < 256 :=
        fun x hx => hwf x (List.mem_cons_of_mem r hx)
      rw [ih j q tail hwf' (Nat.lt_of_succ_lt_succ hj) hm hprev']
      simp [List.getD_cons_succ]

theorem fs_loop_no_match :
    ∀ (recs : List DirRec) (q tail : List Nat),
    (∀ r ∈ recs, r.size < 2 ^ 32 ∧ r.selector < 2 ^ 16 ∧
      r.name.length = 56 ∧ ∀ b ∈ r.name, b < 256) →
    (∀ i, i < recs.length → equal_str (recs.getD i default).name q = false) →
    fs_loop recs.length ((recs.map encodeRec).flatten ++ tail) q = .error () := by
  intro recs
  induction recs with
  | nil =>
    intro q tail _ _
    simp [fs_loop]
  | cons r rest ih =>
    intro q tail hwf hnone
    obtain ⟨hs, hse, hn, hb⟩ := hwf r (List.mem_cons_self r rest)
    simp only [List.map_cons, List.flatten_cons, List.length_cons,
      List.append_assoc]
    rw [fs_loop_cons r rest.length _ q hs hse hn hb]
    have h0 : equal_str r.name q = false := by
      have := hnone 0 (Nat.succ_pos rest.length)
      rwa [List.getD_cons_zero] at this
    rw [h0]
    simp only [Bool.false_eq_true, if_false]
    apply ih q tail (fun x hx => hwf x (List.mem_cons_of_mem r hx))
    intro i hi
    have := hnone (i + 1) (Nat.succ_lt_succ hi)
    rwa [List.getD_cons_succ] at this

/-! Helper lemmas: the full pipeline on a synthetic device. -/

theorem fkr_loop_flatten (es : List E820) : ∀ (rest : List Nat) (r : KernelRegion),
    (∀ e ∈ es, e.start < 2 ^ 64 ∧ e.size < 2 ^ 64 ∧ e.typ < 2 ^ 32) →
    fkr_loop es.length ((es.map encode_e820).flatten ++ rest) r =
      es.foldl e820_step r := by
  induction es with
  | nil =>
    intro rest r _
    simp [fkr_loop]
  | cons e es ih =>
    intro rest r hent
    obtain ⟨h1, h2, h3⟩ := hent e (List.mem_cons_self e es)
    have h1' : e.start < 2 ^ (8 * 8) := by simpa using h1
    have h2' : e.size < 2 ^ (8 * 8) := by simpa using h2
    have h3' : e.typ < 2 ^ (4 * 8) := by simpa using h3
    have hs : ((e :: es).map encode_e820).flatten ++ rest =
        le_bytes 8 e.start ++ (le_bytes 8 e.size ++ (le_bytes 4 e.typ ++
          ((es.map encode_e820).flatten ++ rest))) := by
      simp [encode_e820, List.append_assoc]
    rw [hs]
    simp only [List.length_cons, fkr_loop, read_le_encode 8 e.start _ h1',
      read_le_encode 8 e.size _ h2', read_le_encode 4 e.typ _ h3']
    rw [List.foldl_cons]
    exact ih rest (e820_step r ⟨e.start, e.size, e.typ⟩)
      (fun x hx => hent x (List.mem_cons_of_mem e hx))

theorem file_selector_mkDevice (es : List E820) (hsize : 20 * es.length < 2 ^ 32) :
    file_selector (mkDevice es) etc_e820_name =
      .ok ⟨20 * es.length, E820_SELECTOR⟩ := by
  unfold file_selector
  have hdir : mkDevice es FW_CFG_FILE_DIR =
      be_bytes 4 1 ++
        (encodeRec ⟨20 * es.length, E820_SELECTOR, etc_e820_padded⟩ ++ []) := by
    simp [mkDevice, FW_CFG_FILE_DIR, FW_CFG_ID]
  rw [hdir]
  simp only [read_be_encode 4 1 _ (by norm_num : (1 : Nat) < 2 ^ (4 * 8))]
  rw [show (1 : Nat) = 0 + 1 from rfl,
    fs_loop_cons ⟨20 * es.length, E820_SELECTOR, etc_e820_padded⟩ 0 [] etc_e820_name
      hsize (by norm_num [E820_SELECTOR])
      (show etc_e820_padded.length = 56 from by decide)
      (show ∀ b ∈ etc_e820_padded, b < 256 from by decide)]
  rw [show equal_str etc_e820_padded etc_e820_name = true from by decide]
  simp

theorem find_kernel_region_mkDevice (es : List E820) (hwf : E820wf es) :
    find_kernel_region (mkDevice es) = finalize_region (scan_e820 es) := by
  obtain ⟨hlen, hent⟩ := hwf
  have hsize : 20 * es.length < 2 ^ 32 := by
    have h27 : (2 : Nat) ^ 27 = 134217728 := by norm_num
    have h32 : (2 : Nat) ^ 32 = 4294967296 := by norm_num
    omega
  unfold find_kernel_region
  rw [file_selector_mkDevice es hsize]
  show finalize_region
      (fkr_loop (20 * es.length / 20) (mkDevice es E820_SELECTOR) ⟨0, 0⟩) = _
  have hdiv : 20 * es.length / 20 = es.length :=
    Nat.mul_div_cancel_left es.length (by norm_num)
  have hdev : mkDevice es E820_SELECTOR = (es.map encode_e820).flatten ++ [] := by
    simp [mkDevice, E820_SELECTOR, FW_CFG_ID, FW_CFG_FILE_DIR]
  rw [hdiv, hdev, fkr_loop_flatten es [] ⟨0, 0⟩ hent]
  rfl

/-! Helper lemmas: analysis of the E820 scan. -/

theorem regionAt_succ (es : List E820) (k : Nat) (h : k < es.length) :
    regionAt es (k + 1) = e820_step (regionAt es k) (es.getD k default) := by
  unfold regionAt
  have hg : es.getD k default = es[k] := by
    rw [List.getD_eq_getElem?_getD, List.getElem?_eq_getElem h]
    rfl
  rw [hg, List.take_succ, List.getElem?_eq_getElem h]
  simp only [Option.toList_some, List.foldl_append, List.foldl_cons, List.foldl_nil]

theorem e820_step_eq_self {r : KernelRegion} {e : E820}
    (h : ¬(e.typ = 1 ∧ r.start ≤ e.start)) : e820_step r e = r := by
  unfold e820_step
  rw [if_neg h]

theorem regionAt_stable (es : List E820) (j : Nat)
    (hq : ∀ k, j < k → k < es.length → ¬ qualifies es k) :
    ∀ m, j < m → m ≤ es.length → regionAt es m = regionAt es (j + 1) := by
  intro m
  induction m with
  | zero => intro h _; omega
  | succ m ih =>
    intro hjm hm
    rcases Nat.lt_or_ge j m with hj | hj
    · have hml : m < es.length := by omega
      rw [regionAt_succ es m hml]
      rw [e820_step_eq_self (by
        have := hq m hj hml
        unfold qualifies at this
        exact this)]
      exact ih hj (by omega)
    · have : m = j := by omega
      subst this
      rfl

theorem scan_eq_regionAt (es : List E820) :
    scan_e820 es = regionAt es es.length := by
  unfold scan_e820 regionAt
  rw [List.take_length]

theorem regionAt_zero_of_no_qual (es : List E820)
    (h : ∀ k, k < es.length → ¬ qualifies es k) :
    ∀ m, m ≤ es.length → regionAt es m = ⟨0, 0⟩ := by
  intro m
  induction m with
  | zero => intro _; rfl
  | succ m ih =>
    intro hm
    have hml : m < es.length := by omega
    rw [regionAt_succ es m hml]
    rw [ih (by omega)]
    apply e820_step_eq_self
    intro hc
    apply h m hml
    unfold qualifies
    rw [ih (by omega)]
    exact hc

theorem exists_qualifying (es : List E820) (h : ∃ e ∈ es, e.typ = 1) :
    ∃ k, k < es.length ∧ qualifies es k := by
  by_contra hnone
  push_neg at hnone
  obtain ⟨e, he, ht⟩ := h
  obtain ⟨i, hi, hei⟩ := List.mem_iff_getElem.mp he
  apply hnone i hi
  have hg : es.getD i default = e := by
    rw [List.getD_eq_getElem?_getD, List.getElem?_eq_getElem hi]
    exact hei
  unfold qualifies
  rw [hg]
  refine ⟨ht, ?_⟩
  rw [regionAt_zero_of_no_qual es (fun k hk => hnone k hk) i (le_of_lt hi)]
  exact Nat.zero_le _

theorem scan_end_lt (es : List E820) : (scan_e820 es).end_ < 2 ^ 64 := by
  suffices h : ∀ (r : KernelRegion), r.end_ < 2 ^ 64 →
      (es.foldl e820_step r).end_ < 2 ^ 64 by
    exact h ⟨0, 0⟩ (by norm_num)
  induction es with
  | nil => intro r h; exact h
  | cons e es ih =>
    intro r h
    rw [List.foldl_cons]
    apply ih
    unfold e820_step
    split
    · exact Nat.mod_lt _ (by norm_num)
    · exact h

/-! Helper lemmas: traces of the stage2 mapping loop. -/

theorem mapTrace_succ (v p m : Nat) :
    mapTrace v p (m + 1) =
      (⟨v % 2 ^ 64, p, map_flags⟩ : MapCall) ::
        mapTrace ((v + 4096) % 2 ^ 64) (p + 4096) m := by
  unfold mapTrace
  rw [List.range_succ_eq_map, List.map_cons, List.map_map]
  simp only [Nat.mul_zero, Nat.add_zero]
  congr 1
  apply List.map_congr_left
  intro i _
  simp only [Function.comp_apply, Nat.succ_eq_add_one, MapCall.mk.injEq]
  refine ⟨?_, by ring, trivial⟩
  rw [Nat.mod_add_mod]
  congr 1
  ring

theorem map_memory_ok_trace (map4k : Nat → Nat → List PTFlag → Bool) :
    ∀ (fuel paddr pend vaddr : Nat), vaddr < 2 ^ 64 → paddr < pend →
    pend ≤ 2 ^ 64 - 4096 → pages paddr pend ≤ fuel →
    (∀ i, i < pages paddr pend →
      map4k ((vaddr + 4096 * i) % 2 ^ 64) (paddr + 4096 * i) map_flags = true) →
    map_memory map4k fuel paddr pend vaddr =
      (mapTrace vaddr paddr (pages paddr pend), some (.ok ())) := by
  intro fuel
  induction fuel with
  | zero =>
    intro paddr pend vaddr hv hlt hwrap hfuel hok
    unfold pages at hfuel
    omega
  | succ fuel ih =>
    intro paddr pend vaddr hv hlt hwrap hfuel hok
    have hp1 : 0 < pages paddr pend := by
      unfold pages
      omega
    have h0 : map4k vaddr paddr map_flags = true := by
      have := hok 0 hp1
      rwa [Nat.mul_zero, Nat.add_zero, Nat.mod_eq_of_lt hv] at this
    have hpa : (paddr + 4096) % 2 ^ 64 = paddr + 4096 :=
      Nat.mod_eq_of_lt (by omega)
    simp only [map_memory]
    rw [if_neg (by rw [h0]; simp), hpa]
    by_cases hend : pend ≤ paddr + 4096
    · rw [if_pos hend]
      have hpg : pages paddr pend = 1 := by
        unfold pages
        omega
      have h1 : mapTrace vaddr paddr 1 = [⟨vaddr, paddr, map_flags⟩] := by
        unfold mapTrace
        rw [show List.range 1 = [0] from rfl, List.map_cons, List.map_nil]
        simp only [Nat.mul_zero, Nat.add_zero]
        rw [Nat.mod_eq_of_lt hv]
      rw [hpg, h1]
    · rw [if_neg hend]
      have hok' : ∀ i, i < pages (paddr + 4096) pend →
          map4k (((vaddr + 4096) % 2 ^ 64 + 4096 * i) % 2 ^ 64)
            (paddr + 4096 + 4096 * i) map_flags = true := by
        intro i hi
        have hpg : pages paddr pend = pages (paddr + 4096) pend + 1 := by
          unfold pages
          omega
        have := hok (i + 1) (by omega)
        rw [show vaddr + 4096 * (i + 1) = vaddr + 4096 + 4096 * i by ring,
          show paddr + 4096 * (i + 1) = paddr + 4096 + 4096 * i by ring] at this
        rwa [Nat.mod_add_mod]
      have ihh := ih (paddr + 4096) pend ((vaddr + 4096) % 2 ^ 64)
        (Nat.mod_lt _ (by norm_num)) (by omega) hwrap
        (by unfold pages at hfuel ⊢; omega) hok'
      have hpg : pages paddr pend = pages (paddr + 4096) pend + 1 := by
        unfold pages
        omega
      conv_rhs => rw [hpg, mapTrace_succ, Nat.mod_eq_of_lt hv]
      rw [ihh]

theorem map_memory_fail_trace (map4k : Nat → Nat → List PTFlag → Bool) :
    ∀ (fuel paddr pend vaddr k : Nat), vaddr < 2 ^ 64 → k < pages paddr pend →
    pend ≤ 2 ^ 64 - 4096 → k + 1 ≤ fuel →
    (∀ i, i < k →
      map4k ((vaddr + 4096 * i) % 2 ^ 64) (paddr + 4096 * i) map_flags = true) →
    map4k ((vaddr + 4096 * k) % 2 ^ 64) (paddr + 4096 * k) map_flags = false →
    map_memory map4k fuel paddr pend vaddr =
      (mapTrace vaddr paddr (k + 1), some (.error ())) := by
  intro fuel
  induction fuel with
  | zero =>
    intro paddr pend vaddr k hv hk hwrap hfuel _ _
    omega
  | succ fuel ih =>
    intro paddr pend vaddr k hv hk hwrap hfuel hoks hfail
    have hlt : paddr < pend := by
      unfold pages at hk
      omega
    simp only [map_memory]
    cases k with
    | zero =>
      have h0 : map4k vaddr paddr map_flags = false := by
        rwa [Nat.mul_zero, Nat.add_zero, Nat.mod_eq_of_lt hv] at hfail
      rw [if_pos h0]
      have h1 : mapTrace vaddr paddr 1 = [⟨vaddr, paddr, map_flags⟩] := by
        unfold mapTrace
        rw [show List.range 1 = [0] from rfl, List.map_cons, List.map_nil]
        simp only [Nat.mul_zero, Nat.add_zero]
        rw [Nat.mod_eq_of_lt hv]
      rw [h1]
    | succ k =>
      have h0 : map4k vaddr paddr map_flags = true := by
        have := hoks 0 (Nat.succ_pos k)
        rwa [Nat.mul_zero, Nat.add_zero, Nat.mod_eq_of_lt hv] at this
      have hpa : (paddr + 4096) % 2 ^ 64 = paddr + 4096 :=
        Nat.mod_eq_of_lt (by omega)
      rw [if_neg (by rw [h0]; simp), hpa]
      have hend : ¬ pend ≤ paddr + 4096 := by
        unfold pages at hk
        omega
      rw [if_neg hend]
      have hoks' : ∀ i, i < k →
          map4k (((vaddr + 4096) % 2 ^ 64 + 4096 * i) % 2 ^ 64)
            (paddr + 4096 + 4096 * i) map_flags = true := by
        intro i hi
        have := hoks (i + 1) (by omega)
        rw [show vaddr + 4096 * (i + 1) = vaddr + 4096 + 4096 * i by ring,
          show paddr + 4096 * (i + 1) = paddr + 4096 + 4096 * i by ring] at this
        rwa [Nat.mod_add_mod]
      have hfail' :
          map4k (((vaddr + 4096) % 2 ^ 64 + 4096 * k) % 2 ^ 64)
            (paddr + 4096 + 4096 * k) map_flags = false := by
        rw [show vaddr + 4096 * (k + 1) = vaddr + 4096 + 4096 * k by ring,
          show paddr + 4096 * (k + 1) = paddr + 4096 + 4096 * k by ring] at hfail
        rwa [Nat.mod_add_mod]
      have hk' : k < pages (paddr + 4096) pend := by
        unfold pages at hk ⊢
        omega
      conv_rhs => rw [show k + 1 + 1 = (k + 1) + 1 from rfl, mapTrace_succ,
        Nat.mod_eq_of_lt hv]
      rw [ih (paddr + 4096) pend ((vaddr + 4096) % 2 ^ 64) k
        (Nat.mod_lt _ (by norm_num)) hk' hwrap (by omega) hoks' hfail']

/-! Helper lemmas: traces of the stage2 validation loop. -/

theorem valTrace_succ (kb p m : Nat) :
    valTrace kb p (m + 1) =
      .msr p :: .pval (kb % 2 ^ 64) false true ::
        valTrace ((kb + 4096) % 2 ^ 64) (p + 4096) m := by
  unfold valTrace
  rw [List.range_succ_eq_map, List.map_cons, List.map_map, List.flatten_cons]
  simp only [Nat.mul_zero, Nat.add_zero, List.cons_append, List.nil_append]
  congr 2
  congr 1
  apply List.map_congr_left
  intro i _
  have h1 : p + 4096 * (i + 1) = p + 4096 + 4096 * i := by ring
  have h3 : kb + 4096 * (i + 1) = kb + 4096 + 4096 * i := by ring
  simp [Function.comp_apply, Nat.succ_eq_add_one, h1, h3, Nat.mod_add_mod]

theorem validate_ok_trace (mok : Nat → Bool) (pok : Nat → Bool → Bool → Bool) :
    ∀ (fuel kaddr paddr pend : Nat), kaddr < 2 ^ 64 → paddr < pend →
    pend ≤ 2 ^ 64 - 4096 → pages paddr pend ≤ fuel →
    (∀ i, i < pages paddr pend →
      mok (paddr + 4096 * i) = true ∧
        pok ((kaddr + 4096 * i) % 2 ^ 64) false true = true) →
    validate_loop mok pok fuel kaddr paddr pend =
      (valTrace kaddr paddr (pages paddr pend), some (.ok ())) := by
  intro fuel
  induction fuel with
  | zero =>
    intro kaddr paddr pend hk hlt hwrap hfuel _
    unfold pages at hfuel
    omega
  | succ fuel ih =>
    intro kaddr paddr pend hk hlt hwrap hfuel hok
    have hp1 : 0 < pages paddr pend := by
      unfold pages
      omega
    have h00 := hok 0 hp1
    rw [Nat.mul_zero, Nat.add_zero, Nat.add_zero, Nat.mod_eq_of_lt hk] at h00
    obtain ⟨hm0, hp0⟩ := h00
    have hpa : (paddr + 4096) % 2 ^ 64 = paddr + 4096 :=
      Nat.mod_eq_of_lt (by omega)
    simp only [validate_loop]
    rw [if_neg (by rw [hm0]; simp), if_neg (by rw [hp0]; simp), hpa]
    by_cases hend : pend ≤ paddr + 4096
    · rw [if_pos hend]
      have hpg : pages paddr pend = 1 := by
        unfold pages
        omega
      have h1 : valTrace kaddr paddr 1 =
          [.msr paddr, .pval kaddr false true] := by
        unfold valTrace
        rw [show List.range 1 = [0] from rfl, List.map_cons, List.map_nil]
        simp only [Nat.mul_zero, Nat.add_zero, List.flatten_cons,
          List.flatten_nil, List.append_nil]
        rw [Nat.mod_eq_of_lt hk]
      rw [hpg, h1]
    · rw [if_neg hend]
      have hok' : ∀ i, i < pages (paddr + 4096) pend →
          mok (paddr + 4096 + 4096 * i) = true ∧
            pok (((kaddr + 4096) % 2 ^ 64 + 4096 * i) % 2 ^ 64) false true =
              true := by
        intro i hi
        have hpg : pages paddr pend = pages (paddr + 4096) pend + 1 := by
          unfold pages
          omega
        have := hok (i + 1) (by omega)
        rw [show paddr + 4096 * (i + 1) = paddr + 4096 + 4096 * i by ring,
          show kaddr + 4096 * (i + 1) = kaddr + 4096 + 4096 * i by ring] at this
        rwa [Nat.mod_add_mod]
      have ihh := ih ((kaddr + 4096) % 2 ^ 64) (paddr + 4096) pend
        (Nat.mod_lt _ (by norm_num)) (by omega) hwrap
        (by unfold pages at hfuel ⊢; omega) hok'
      have hpg : pages paddr pend = pages (paddr + 4096) pend + 1 := by
        unfold pages
        omega
      conv_rhs => rw [hpg, valTrace_succ, Nat.mod_eq_of_lt hk]
      rw [ihh]

theorem validate_msr_fail_trace (mok : Nat → Bool)
    (pok : Nat → Bool → Bool → Bool) :
    ∀ (fuel kaddr paddr pend k : Nat), kaddr < 2 ^ 64 → k < pages paddr pend →
    pend ≤ 2 ^ 64 - 4096 → k + 1 ≤ fuel →
    (∀ i, i < k →
      mok (paddr + 4096 * i) = true ∧
        pok ((kaddr + 4096 * i) % 2 ^ 64) false true = true) →
    mok (paddr + 4096 * k) = false →
    validate_loop mok pok fuel kaddr paddr pend =
      (valTrace kaddr paddr k ++ [.msr (paddr + 4096 * k)], some (.error ())) := by
  intro fuel
  induction fuel with
  | zero =>
    intro kaddr paddr pend k hk hkp hwrap hfuel _ _
    omega
  | succ fuel ih =>
    intro kaddr paddr pend k hk hkp hwrap hfuel hoks hfail
    have hlt : paddr < pend := by
      unfold pages at hkp
      omega
    simp only [validate_loop]
    cases k with
    | zero =>
      have h0 : mok paddr = false := by simpa using hfail
      rw [if_pos h0]
      rfl
    | succ k =>
      have h00 := hoks 0 (Nat.succ_pos k)
      rw [Nat.mul_zero, Nat.add_zero, Nat.add_zero, Nat.mod_eq_of_lt hk] at h00
      obtain ⟨hm0, hp0⟩ := h00
      have hpa : (paddr + 4096) % 2 ^ 64 = paddr + 4096 :=
        Nat.mod_eq_of_lt (by omega)
      rw [if_neg (by rw [hm0]; simp), if_neg (by rw [hp0]; simp), hpa]
      have hend : ¬ pend ≤ paddr + 4096 := by
        unfold pages at hkp
        omega
      rw [if_neg hend]
      have hoks' : ∀ i, i < k →
          mok (paddr + 4096 + 4096 * i) = true ∧
            pok (((kaddr + 4096) % 2 ^ 64 + 4096 * i) % 2 ^ 64) false true =
              true := by
        intro i hi
        have := hoks (i + 1) (by omega)
        rw [show paddr + 4096 * (i + 1) = paddr + 4096 + 4096 * i by ring,
          show kaddr + 4096 * (i + 1) = kaddr + 4096 + 4096 * i by ring] at this
        rwa [Nat.mod_add_mod]
      have hfail' : mok (paddr + 4096 + 4096 * k) = false := by
        rwa [show paddr + 4096 * (k + 1) = paddr + 4096 + 4096 * k by ring]
          at hfail
      have hk' : k < pages (paddr + 4096) pend := by
        unfold pages at hkp ⊢
        omega
      rw [show paddr + 4096 * (k + 1) = paddr + 4096 + 4096 * k by ring]
      conv_rhs => rw [valTrace_succ, Nat.mod_eq_of_lt hk, List.cons_append,
        List.cons_append]
      rw [ih ((kaddr + 4096) % 2 ^ 64) (paddr + 4096) pend k
        (Nat.mod_lt _ (by norm_num)) hk' hwrap (by omega) hoks' hfail']

theorem validate_pval_fail_trace (mok : Nat → Bool)
    (pok : Nat → Bool → Bool → Bool) :
    ∀ (fuel kaddr paddr pend k : Nat), kaddr < 2 ^ 64 → k < pages paddr pend →
    pend ≤ 2 ^ 64 - 4096 → k + 1 ≤ fuel →
    (∀ i, i < k →
      mok (paddr + 4096 * i) = true ∧
        pok ((kaddr + 4096 * i) % 2 ^ 64) false true = true) →
    mok (paddr + 4096 * k) = true →
    pok ((kaddr + 4096 * k) % 2 ^ 64) false true = false →
    validate_loop mok pok fuel kaddr paddr pend =
      (valTrace kaddr paddr k ++
        [.msr (paddr + 4096 * k),
          .pval ((kaddr + 4096 * k) % 2 ^ 64) false true], some (.error ())) := by
  intro fuel
  induction fuel with
  | zero =>
    intro kaddr paddr pend k hk hkp hwrap hfuel _ _ _
    omega
  | succ fuel ih =>
    intro kaddr paddr pend k hk hkp hwrap hfuel hoks hmk hfail
    have hlt : paddr < pend := by
      unfold pages at hkp
      omega
    simp only [validate_loop]
    cases k with
    | zero =>
      have h0 : mok paddr = true := by simpa using hmk
      have h1 : pok (kaddr % 2 ^ 64) false true = false := by simpa using hfail
      rw [Nat.mod_eq_of_lt hk] at h1
      rw [if_neg (by rw [h0]; simp), if_pos h1]
      have h2 : ((kaddr + 4096 * 0) % 2 ^ 64) = kaddr := by
        rw [Nat.mul_zero, Nat.add_zero, Nat.mod_eq_of_lt hk]
      rw [h2]
      rfl
    | succ k =>
      have h00 := hoks 0 (Nat.succ_pos k)
      rw [Nat.mul_zero, Nat.add_zero, Nat.add_zero, Nat.mod_eq_of_lt hk] at h00
      obtain ⟨hm0, hp0⟩ := h00
      have hpa : (paddr + 4096) % 2 ^ 64 = paddr + 4096 :=
        Nat.mod_eq_of_lt (by omega)
      rw [if_neg (by rw [hm0]; simp), if_neg (by rw [hp0]; simp), hpa]
      have hend : ¬ pend ≤ paddr + 4096 := by
        unfold pages at hkp
        omega
      rw [if_neg hend]
      have hoks' : ∀ i, i < k →
          mok (paddr + 4096 + 4096 * i) = true ∧
            pok (((kaddr + 4096) % 2 ^ 64 + 4096 * i) % 2 ^ 64) false true =
              true := by
        intro i hi
        have := hoks (i + 1) (by omega)
        rw [show paddr + 4096 * (i + 1) = paddr + 4096 + 4096 * i by ring,
          show kaddr + 4096 * (i + 1) = kaddr + 4096 + 4096 * i by ring] at this
        rwa [Nat.mod_add_mod]
      have hmk' : mok (paddr + 4096 + 4096 * k) = true := by
        rwa [show paddr + 4096 * (k + 1) = paddr + 4096 + 4096 * k by ring]
          at hmk
      have hfail' :
          pok (((kaddr + 4096) % 2 ^ 64 + 4096 * k) % 2 ^ 64) false true =
            false := by
        rw [show kaddr + 4096 * (k + 1) = kaddr + 4096 + 4096 * k by ring]
          at hfail
        rwa [Nat.mod_add_mod]
      have hk' : k < pages (paddr + 4096) pend := by
        unfold pages at hkp ⊢
        omega
      have ihh := ih ((kaddr + 4096) % 2 ^ 64) (paddr + 4096) pend k
        (Nat.mod_lt _ (by norm_num)) hk' hwrap (by omega) hoks' hmk' hfail'
      rw [Nat.mod_add_mod] at ihh
      rw [show paddr + 4096 * (k + 1) = paddr + 4096 + 4096 * k by ring,
        show kaddr + 4096 * (k + 1) = kaddr + 4096 + 4096 * k by ring]
      conv_rhs => rw [valTrace_succ, Nat.mod_eq_of_lt hk, List.cons_append,
        List.cons_append]
      rw [ihh]

/-! Claim theorems. -/

/-- C1: for every E820 entry sequence containing at least one `type == 1`
entry, the scan of `find_kernel_region` selects the last entry (in scan
order) that satisfies `type == 1 && start >= region.start` with the running
region initialized to `{0, 0}`, replacing the running region with
`{start, start + size}` at each qualifying entry; the region fed to the
final alignment step is exactly the one from that last qualifying entry. -/
theorem find_kernel_region_last_qualifying (es : List E820) (hwf : E820wf es)
    (hone : ∃ e ∈ es, e.typ = 1) :
    ∃ j, j < es.length ∧ qualifies es j ∧
      (∀ k, j < k → k < es.length → ¬ qualifies es k) ∧
      scan_e820 es =
        ⟨(es.getD j default).start,
          ((es.getD j default).start + (es.getD j default).size) % 2 ^ 64⟩ ∧
      find_kernel_region (mkDevice es) = finalize_region (scan_e820 es) := by
  obtain ⟨k0, hk0, hq0⟩ := exists_qualifying es hone
  have hPj := Nat.findGreatest_spec (P := fun k => k < es.length ∧ qualifies es k)
    (le_of_lt hk0) ⟨hk0, hq0⟩
  set j := Nat.findGreatest (fun k => k < es.length ∧ qualifies es k) es.length
    with hjdef
  obtain ⟨hjlen, hjq⟩ := hPj
  have hmax : ∀ k, j < k → k < es.length → ¬ qualifies es k := by
    intro k h1 h2 hq
    rw [hjdef] at h1
    exact Nat.findGreatest_is_greatest h1 (le_of_lt h2) ⟨h2, hq⟩
  have hjq2 : (es.getD j default).typ = 1 ∧
      (regionAt es j).start ≤ (es.getD j default).start := hjq
  have hscan : scan_e820 es =
      ⟨(es.getD j default).start,
        ((es.getD j default).start + (es.getD j default).size) % 2 ^ 64⟩ := by
    rw [scan_eq_regionAt]
    rw [regionAt_stable es j hmax es.length hjlen le_rfl]
    rw [regionAt_succ es j hjlen]
    unfold e820_step
    rw [if_pos hjq2]
  exact ⟨j, hjlen, hjq, hmax, hscan, find_kernel_region_mkDevice es hwf⟩

/-- Input for the C1 witness: a deliberately out-of-order usable-RAM map;
the last qualifying entry is the third one. -/
def esC1 : List E820 :=
  [⟨0x5000000, 0x1000000, 1⟩, ⟨0x1000000, 0x1000000, 1⟩,
    ⟨0x6000000, 0x2000000, 1⟩]

/-- Witness for C1 at the concrete out-of-order map `esC1`. -/
theorem find_kernel_region_last_qualifying_witness :
    E820wf esC1 ∧ (∃ e ∈ esC1, e.typ = 1) ∧
      (∃ j, j < esC1.length ∧ qualifies esC1 j ∧
        (∀ k, j < k → k < esC1.length → ¬ qualifies esC1 k) ∧
        scan_e820 esC1 =
          ⟨(esC1.getD j default).start,
            ((esC1.getD j default).start + (esC1.getD j default).size) % 2 ^ 64⟩ ∧
        find_kernel_region (mkDevice esC1) = finalize_region (scan_e820 esC1)) :=
  ⟨by decide, by decide,
    find_kernel_region_last_qualifying esC1 (by decide) (by decide)⟩

/-- C2 (code bug): on an e820 stream with no `type == 1` entry the running
region stays `{0, 0}`, the wrapping `u64` subtraction
`region.end - KERNEL_REGION_SIZE` yields `0xFFFFFFFFFF000000`, the
`start < region.start` guard is false, and `find_kernel_region` returns
`Ok {start: 0xFFFFFFFFFF000000, end: 0}` instead of the RegionTooSmall
error the spec requires. -/
theorem find_kernel_region_no_ram_bug :
    find_kernel_region (mkDevice [⟨0, 0x1000, 2⟩]) =
      .ok ⟨0xFFFFFFFFFF000000, 0⟩ := by
  rfl

/-- C3: for a scanned region whose end is at least `KERNEL_REGION_SIZE`
(no underflow), the aligned start computed by `find_kernel_region` is at
most `end - KERNEL_REGION_SIZE`, is a multiple of `KERNEL_REGION_SIZE`
(16 MiB), and the final step fails exactly when it falls below the region's
start, otherwise returning the region with its start replaced and its end
unchanged. -/
theorem aligned_start_spec (r : KernelRegion) (h64 : r.end_ < 2 ^ 64)
    (hK : KERNEL_REGION_SIZE ≤ r.end_) :
    aligned_start r ≤ r.end_ - KERNEL_REGION_SIZE ∧
    KERNEL_REGION_SIZE ∣ aligned_start r ∧
    (finalize_region r = .error () ↔ aligned_start r < r.start) ∧
    (r.start ≤ aligned_start r →
      finalize_region r = .ok ⟨aligned_start r, r.end_⟩) := by
  have hKval : KERNEL_REGION_SIZE = 2 ^ 24 := by norm_num [KERNEL_REGION_SIZE]
  have hKlt : KERNEL_REGION_SIZE ≤ 2 ^ 64 := by
    rw [hKval]
    norm_num
  have hwrap : (r.end_ + (2 ^ 64 - KERNEL_REGION_SIZE)) % 2 ^ 64 =
      r.end_ - KERNEL_REGION_SIZE := by
    have h1 : r.end_ + (2 ^ 64 - KERNEL_REGION_SIZE) =
        (r.end_ - KERNEL_REGION_SIZE) + 2 ^ 64 := by omega
    rw [h1, Nat.add_mod_right, Nat.mod_eq_of_lt (by omega)]
  have hA : aligned_start r =
      2 ^ 24 * ((r.end_ - KERNEL_REGION_SIZE) / 2 ^ 24) := by
    unfold aligned_start
    rw [hwrap, land_mask_eq _ (by omega)]
  refine ⟨?_, ?_, ?_, ?_⟩
  · rw [hA, Nat.mul_comm]
    exact Nat.div_mul_le_self _ _
  · rw [hKval, hA]
    exact ⟨_, rfl⟩
  · unfold finalize_region
    by_cases hlt : aligned_start r < r.start
    · simp [hlt]
    · simp [hlt]
  · intro hge
    unfold finalize_region
    rw [if_neg (Nat.not_lt.mpr hge)]

/-- Witness for C3 at the concrete scanned region `{0, 0x20000000}`. -/
theorem aligned_start_spec_witness :
    ((⟨0, 0x20000000⟩ : KernelRegion).end_ < 2 ^ 64 ∧
      KERNEL_REGION_SIZE ≤ (⟨0, 0x20000000⟩ : KernelRegion).end_) ∧
    (aligned_start ⟨0, 0x20000000⟩ ≤ 0x20000000 - KERNEL_REGION_SIZE ∧
      KERNEL_REGION_SIZE ∣ aligned_start ⟨0, 0x20000000⟩ ∧
      (finalize_region ⟨0, 0x20000000⟩ = .error () ↔
        aligned_start ⟨0, 0x20000000⟩ < 0) ∧
      (0 ≤ aligned_start ⟨0, 0x20000000⟩ →
        finalize_region ⟨0, 0x20000000⟩ =
          .ok ⟨aligned_start ⟨0, 0x20000000⟩, 0x20000000⟩)) :=
  ⟨⟨by decide, by decide⟩,
    aligned_start_spec ⟨0, 0x20000000⟩ (by decide) (by decide)⟩

/-- C4: on the single-entry e820 stream `{start: 0, size: 0x20000000,
type: 1}` (512 MiB of usable RAM at address 0), `find_kernel_region`
returns `Ok {start: 0x1F000000, end: 0x20000000}`. -/
theorem find_kernel_region_512MiB :
    find_kernel_region (mkDevice [⟨0, 0x20000000, 1⟩]) =
      .ok ⟨0x1F000000, 0x20000000⟩ := by
  rfl

/-- C5: for every directory byte stream with count `n` and every query,
`file_selector` returns the size and selector of the first record in stream
order whose 56-byte name field matches the query, without reading any bytes
past that record (any tail after the matching record is irrelevant); if no
record among the `n` matches — in particular when `n = 0`, where the loop
reads no record bytes at all — it returns the NotFound error. -/
theorem file_selector_first_match (recs : List DirRec) (q : List Nat)
    (dev : Nat → List Nat) (hwf : DirWf recs) :
    (∀ j, j < recs.length → equal_str (recs.getD j default).name q = true →
      (∀ i, i < j → equal_str (recs.getD i default).name q = false) →
      ∀ tail, dev FW_CFG_FILE_DIR =
          be_bytes 4 recs.length ++
            (((recs.take (j + 1)).map encodeRec).flatten ++ tail) →
        file_selector dev q =
          .ok ⟨(recs.getD j default).size, (recs.getD j default).selector⟩) ∧
    ((∀ i, i < recs.length → equal_str (recs.getD i default).name q = false) →
      ∀ tail, dev FW_CFG_FILE_DIR =
          be_bytes 4 recs.length ++ ((recs.map encodeRec).flatten ++ tail) →
        file_selector dev q = .error ()) := by
  obtain ⟨hlen, hrec⟩ := hwf
  have hlen' : recs.length < 2 ^ (4 * 8) := by simpa using hlen
  constructor
  · intro j hj hm hprev tail hdev
    unfold file_selector
    rw [hdev]
    simp only [read_be_encode 4 recs.length _ hlen']
    exact fs_loop_first_match recs j q tail hrec hj hm hprev
  · intro hnone tail hdev
    unfold file_selector
    rw [hdev]
    simp only [read_be_encode 4 recs.length _ hlen']
    exact fs_loop_no_match recs q tail hrec hnone

/-- Directory listing for the C5 witness: two records, the query matches
only the second one. -/
def c5recs : List DirRec :=
  [⟨10, 7, 97 :: List.replicate 55 0⟩, ⟨20, 8, 98 :: List.replicate 55 0⟩]

/-- Device for the C5 witness. -/
def c5dev : Nat → List Nat := fun sel =>
  if sel = FW_CFG_FILE_DIR then
    be_bytes 4 c5recs.length ++ (((c5recs.take 2).map encodeRec).flatten ++ [])
  else []

/-- Witness for C5 at a concrete two-record directory. -/
theorem file_selector_first_match_witness :
    DirWf c5recs ∧ file_selector c5dev [98] = .ok ⟨20, 8⟩ := by
  refine ⟨by decide, ?_⟩
  have h := (file_selector_first_match c5recs [98] c5dev (by decide)).1 1
    (by decide) (by decide) (by decide) [] rfl
  exact h

/-- C6 counterexample: at the region `{0xFFFFFFFFFFFFE000,
0xFFFFFFFFFFFFFFFF}` (whose fields are in the `u64` range) the wrapping
`usize` increment steps `paddr` past the `paddr >= pend` check: after the
claimed 2 pages the loop is still running (`none`), has already issued 6
calls, and its fifth event is an MSR request for physical address 0 —
outside the region — refuting the claim that the loop validates exactly the
region's pages and stops. -/
theorem validate_kernel_region_wrap_cx :
    pages 0xFFFFFFFFFFFFE000 0xFFFFFFFFFFFFFFFF = 2 ∧
    (validate_kernel_region (fun _ => true) (fun _ _ _ => true) 3
      ⟨0xFFFFFFFFFFFFE000, 0xFFFFFFFFFFFFFFFF⟩).2 = none ∧
    (validate_kernel_region (fun _ => true) (fun _ _ _ => true) 3
      ⟨0xFFFFFFFFFFFFE000, 0xFFFFFFFFFFFFFFFF⟩).1.length = 6 ∧
    (validate_kernel_region (fun _ => true) (fun _ _ _ => true) 3
      ⟨0xFFFFFFFFFFFFE000, 0xFFFFFFFFFFFFFFFF⟩).1.getD 4 (.msr 1) =
      .msr 0 :=
  ⟨rfl, rfl, rfl, rfl⟩

/-- C6 (amended): for every region with `start < end` and
`end ≤ 2^64 - 4096` (so the wrapping `usize` increments cannot step past
the bound check), `validate_kernel_region` walks the region in 4 KiB pages
at increasing physical addresses from `region.start` and virtual addresses
`(KERNEL_VIRT_ADDR + 4096*i) mod 2^64`, issuing for each page first the
hypervisor-facing `validate_page_msr` on the physical address and then
`pvalidate` on the virtual address; with enough fuel it returns an error at
the first failure of either call without touching any later page, so a
first failure at page `k` leaves exactly `k` fully validated pages in the
call trace. -/
theorem validate_kernel_region_trace (mok : Nat → Bool)
    (pok : Nat → Bool → Bool → Bool) (fuel : Nat) (region : KernelRegion)
    (hne : region.start < region.end_)
    (hwrap : region.end_ ≤ 2 ^ 64 - 4096) :
    ((pages region.start region.end_ ≤ fuel →
      (∀ i, i < pages region.start region.end_ →
        mok (region.start + 4096 * i) = true ∧
        pok ((KERNEL_VIRT_ADDR + 4096 * i) % 2 ^ 64) false true = true) →
      validate_kernel_region mok pok fuel region =
        (valTrace KERNEL_VIRT_ADDR region.start
          (pages region.start region.end_), some (.ok ()))) ∧
    (∀ k, k < pages region.start region.end_ → k + 1 ≤ fuel →
      (∀ i, i < k → mok (region.start + 4096 * i) = true ∧
        pok ((KERNEL_VIRT_ADDR + 4096 * i) % 2 ^ 64) false true = true) →
      (mok (region.start + 4096 * k) = false →
        validate_kernel_region mok pok fuel region =
          (valTrace KERNEL_VIRT_ADDR region.start k ++
            [.msr (region.start + 4096 * k)], some (.error ()))) ∧
      (mok (region.start + 4096 * k) = true →
        pok ((KERNEL_VIRT_ADDR + 4096 * k) % 2 ^ 64) false true = false →
        validate_kernel_region mok pok fuel region =
          (valTrace KERNEL_VIRT_ADDR region.start k ++
            [.msr (region.start + 4096 * k),
              .pval ((KERNEL_VIRT_ADDR + 4096 * k) % 2 ^ 64) false true],
            some (.error ()))))) := by
  have hKVA : KERNEL_VIRT_ADDR < 2 ^ 64 := by norm_num [KERNEL_VIRT_ADDR]
  unfold validate_kernel_region
  refine ⟨?_, ?_⟩
  · intro hfuel hok
    exact validate_ok_trace mok pok fuel KERNEL_VIRT_ADDR region.start
      region.end_ hKVA hne hwrap hfuel hok
  · intro k hk hfuel hoks
    refine ⟨?_, ?_⟩
    · intro hfail
      exact validate_msr_fail_trace mok pok fuel KERNEL_VIRT_ADDR region.start
        region.end_ k hKVA hk hwrap hfuel hoks hfail
    · intro hmk hfail
      exact validate_pval_fail_trace mok pok fuel KERNEL_VIRT_ADDR
        region.start region.end_ k hKVA hk hwrap hfuel hoks hmk hfail

/-- Witness for the amended C6: a 4-page region with an induced MSR failure
at page index 2; exactly 2 pages are fully validated before the stop. -/
theorem validate_kernel_region_trace_witness :
    ((⟨0, 0x4000⟩ : KernelRegion).start < (⟨0, 0x4000⟩ : KernelRegion).end_ ∧
      (⟨0, 0x4000⟩ : KernelRegion).end_ ≤ 2 ^ 64 - 4096) ∧
    validate_kernel_region (fun p => p != 8192) (fun _ _ _ => true) 4
        ⟨0, 0x4000⟩ =
      (valTrace KERNEL_VIRT_ADDR 0 2 ++ [.msr 8192], some (.error ())) := by
  refine ⟨⟨by decide, by decide⟩, ?_⟩
  have h := ((validate_kernel_region_trace (fun p => p != 8192)
    (fun _ _ _ => true) 4 ⟨0, 0x4000⟩ (by decide) (by decide)).2 2 (by decide)
    (by decide) (by decide)).1 (by decide)
  exact h

/-- C7 counterexample: at the region `{0xFFFFFFFFFFFFE000,
0xFFFFFFFFFFFFFFFF}` the wrapping `usize` increment steps `paddr` past the
`paddr >= pend` check: after the claimed 2 pages the loop is still running
(`none`) and has already issued a third `map_4k` call at physical address
0 — outside `[region.start, region.end)` — refuting the claim that the
operation stops once the mapped physical address reaches `region.end`. -/
theorem map_kernel_region_wrap_cx :
    pages 0xFFFFFFFFFFFFE000 0xFFFFFFFFFFFFFFFF = 2 ∧
    (map_kernel_region (fun _ _ _ => true) 3
      ⟨0xFFFFFFFFFFFFE000, 0xFFFFFFFFFFFFFFFF⟩).2 = none ∧
    (map_kernel_region (fun _ _ _ => true) 3
      ⟨0xFFFFFFFFFFFFE000, 0xFFFFFFFFFFFFFFFF⟩).1.map MapCall.paddr =
      [0xFFFFFFFFFFFFE000, 0xFFFFFFFFFFFFF000, 0] :=
  ⟨rfl, rfl, rfl⟩

/-- C7 (amended): for every region with `start < end` and
`end ≤ 2^64 - 4096` (so the wrapping `usize` increments cannot step past
the bound check), `map_kernel_region` maps `[region.start, region.end)` one
4 KiB page at a time to virtual pages `(KERNEL_VIRT_ADDR + 4096*i) mod
2^64` from the fixed base `0xffffff8000000000`, every call carrying
`PRESENT | WRITABLE | ACCESSED | DIRTY`, at sequentially increasing
addresses, stopping once the mapped physical address reaches `region.end`
(with fuel at least the page count); the first single-page failure makes
the operation return an error immediately, with the pages already mapped
still in the call trace and no compensating unmap issued. -/
theorem map_kernel_region_trace (map4k : Nat → Nat → List PTFlag → Bool)
    (fuel : Nat) (region : KernelRegion) (hne : region.start < region.end_)
    (hwrap : region.end_ ≤ 2 ^ 64 - 4096) :
    ((pages region.start region.end_ ≤ fuel →
      (∀ i, i < pages region.start region.end_ →
        map4k ((KERNEL_VIRT_ADDR + 4096 * i) % 2 ^ 64)
          (region.start + 4096 * i) map_flags = true) →
      map_kernel_region map4k fuel region =
        (mapTrace KERNEL_VIRT_ADDR region.start
          (pages region.start region.end_), some (.ok ()))) ∧
    (∀ k, k < pages region.start region.end_ → k + 1 ≤ fuel →
      (∀ i, i < k →
        map4k ((KERNEL_VIRT_ADDR + 4096 * i) % 2 ^ 64)
          (region.start + 4096 * i) map_flags = true) →
      map4k ((KERNEL_VIRT_ADDR + 4096 * k) % 2 ^ 64)
        (region.start + 4096 * k) map_flags = false →
      map_kernel_region map4k fuel region =
        (mapTrace KERNEL_VIRT_ADDR region.start (k + 1),
          some (.error ())))) := by
  have hKVA : KERNEL_VIRT_ADDR < 2 ^ 64 := by norm_num [KERNEL_VIRT_ADDR]
  unfold map_kernel_region
  refine ⟨?_, ?_⟩
  · intro hfuel hok
    exact map_memory_ok_trace map4k fuel region.start region.end_
      KERNEL_VIRT_ADDR hKVA hne hwrap hfuel hok
  · intro k hk hfuel hoks hfail
    exact map_memory_fail_trace map4k fuel region.start region.end_
      KERNEL_VIRT_ADDR k hKVA hk hwrap hfuel hoks hfail

/-- Witness for the amended C7: a 4-page region with an induced mapping
failure at page index 2; the trace holds the two successful calls plus the
failing one. -/
theorem map_kernel_region_trace_witness :
    ((⟨0, 0x4000⟩ : KernelRegion).start < (⟨0, 0x4000⟩ : KernelRegion).end_ ∧
      (⟨0, 0x4000⟩ : KernelRegion).end_ ≤ 2 ^ 64 - 4096) ∧
    map_kernel_region (fun _ p _ => p != 8192) 4 ⟨0, 0x4000⟩ =
      (mapTrace KERNEL_VIRT_ADDR 0 3, some (.error ())) := by
  refine ⟨⟨by decide, by decide⟩, ?_⟩
  have h := (map_kernel_region_trace (fun _ p _ => p != 8192) 4 ⟨0, 0x4000⟩
    (by decide) (by decide)).2 2 (by decide) (by decide) (by decide)
    (by decide)
  exact h

/-- C8: the decoder applies the two byte orders exactly as the wire format
mixes them: `read_be` (used for the directory count and each record's size,
selector and unused fields) yields the value whose big-endian encoding is
the consumed bytes, and `read_le` (used for the version identifier and the
e820 start, size and type fields) yields the value whose little-endian
encoding is the consumed bytes. -/
theorem read_endianness (bs rest : List Nat) (h : ∀ b ∈ bs, b < 256) :
    read_be bs.length (bs ++ rest) = (beVal bs, rest) ∧
    read_le bs.length (bs ++ rest) = (leVal bs, rest) :=
  ⟨read_be_append bs rest h, read_le_append bs rest h⟩

/-- Witness for C8 at concrete bytes `[0x12, 0x34, 0x56]`. -/
theorem read_endianness_witness :
    (∀ b ∈ [18, 52, 86], b < 256) ∧
    read_be 3 [18, 52, 86, 7] = (1193046, [7]) ∧
    read_le 3 [18, 52, 86, 7] = (5649426, [7]) := by
  have h := read_endianness [18, 52, 86] [7] (by decide)
  refine ⟨by decide, ?_, ?_⟩
  · simpa using h.1
  · simpa using h.2

/-- C9 counterexample: on the e820 stream `[{start: 0, size: 0x2000001,
type: 1}]` discovery succeeds with region `{start: 0x1000000,
end: 0x2000001}`, whose width `0x1000001` is not a multiple of the 16 MiB
region size — refuting the claimed width invariant. -/
theorem kernel_region_width_not_multiple :
    find_kernel_region (mkDevice [⟨0, 0x2000001, 1⟩]) =
      .ok ⟨0x1000000, 0x2000001⟩ ∧
    ¬ KERNEL_REGION_SIZE ∣ (0x2000001 - 0x1000000) := by
  refine ⟨by rfl, ?_⟩
  norm_num [KERNEL_REGION_SIZE]

/-- C9 (amended): every region returned successfully by
`find_kernel_region` from a scan whose running region end is at least
`KERNEL_REGION_SIZE` satisfies `end > start`, has width at least 16 MiB,
and has a 16 MiB-aligned start; the width need not be a multiple of
16 MiB. -/
theorem kernel_region_invariants_amended (es : List E820) (r : KernelRegion)
    (hwf : E820wf es) (hK : KERNEL_REGION_SIZE ≤ (scan_e820 es).end_)
    (hok : find_kernel_region (mkDevice es) = .ok r) :
    r.start < r.end_ ∧ KERNEL_REGION_SIZE ≤ r.end_ - r.start ∧
    KERNEL_REGION_SIZE ∣ r.start := by
  rw [find_kernel_region_mkDevice es hwf] at hok
  have h64 : (scan_e820 es).end_ < 2 ^ 64 := scan_end_lt es
  obtain ⟨hle, hdvd, _hiff, _hok2⟩ := aligned_start_spec (scan_e820 es) h64 hK
  unfold finalize_region at hok
  by_cases hlt : aligned_start (scan_e820 es) < (scan_e820 es).start
  · rw [if_pos hlt] at hok
    exact absurd hok (by simp)
  · rw [if_neg hlt] at hok
    have hr : r = ⟨aligned_start (scan_e820 es), (scan_e820 es).end_⟩ := by
      cases hok
      rfl
    subst hr
    have hKpos : 0 < KERNEL_REGION_SIZE := by norm_num [KERNEL_REGION_SIZE]
    refine ⟨?_, ?_, ?_⟩
    · show aligned_start (scan_e820 es) < (scan_e820 es).end_
      omega
    · show KERNEL_REGION_SIZE ≤
        (scan_e820 es).end_ - aligned_start (scan_e820 es)
      omega
    · show KERNEL_REGION_SIZE ∣ aligned_start (scan_e820 es)
      exact hdvd

/-- Witness for the amended C9 at the concrete stream
`[{start: 0x1000000, size: 0x3000000, type: 1}]`. -/
theorem kernel_region_invariants_amended_witness :
    E820wf [⟨0x1000000, 0x3000000, 1⟩] ∧
    KERNEL_REGION_SIZE ≤ (scan_e820 [⟨0x1000000, 0x3000000, 1⟩]).end_ ∧
    ((0x3000000 : Nat) < 0x4000000 ∧
      KERNEL_REGION_SIZE ≤ 0x4000000 - 0x3000000 ∧
      KERNEL_REGION_SIZE ∣ 0x3000000) :=
  ⟨by decide, by decide,
    kernel_region_invariants_amended [⟨0x1000000, 0x3000000, 1⟩]
      ⟨0x3000000, 0x4000000⟩ (by decide) (by decide) (by rfl)⟩

/-- C10 counterexample: with `paddr = pend = 0xFFFFFFFFFFFFF000` the
wrapped increment lands at 0, below `pend`, so the loop does not stop after
the single attempt the claim describes for `start >= end`; and for
`paddr = 0xFFFFFFFFFFFFE000, pend = 0xFFFFFFFFFFFFF001` (2 pages by the
ceiling formula) three calls have been issued and the loop is still
running — refuting the exact page-count claim on the wrapping source. -/
theorem map_memory_wrap_cx :
    (map_memory (fun _ _ _ => true) 2 0xFFFFFFFFFFFFF000 0xFFFFFFFFFFFFF000
      0).1.length = 2 ∧
    pages 0xFFFFFFFFFFFFE000 0xFFFFFFFFFFFFF001 = 2 ∧
    (map_memory (fun _ _ _ => true) 3 0xFFFFFFFFFFFFE000 0xFFFFFFFFFFFFF001
      0).2 = none ∧
    (map_memory (fun _ _ _ => true) 3 0xFFFFFFFFFFFFE000 0xFFFFFFFFFFFFF001
      0).1.length = 3 :=
  ⟨rfl, rfl, rfl, rfl⟩

/-- C10 (amended): `map_memory` checks its end bound only after mapping a
page, so with any positive fuel it attempts at least one page; when
`pend ≤ paddr` and the increment does not wrap (`paddr + 4096 < 2^64`) it
attempts exactly one; and when `paddr < pend ≤ 2^64 - 4096` with every call
succeeding and enough fuel it maps exactly `ceil((pend - paddr) / 4096)`
pages. -/
theorem map_memory_page_count (map4k : Nat → Nat → List PTFlag → Bool)
    (fuel paddr pend vaddr : Nat) :
    (1 ≤ fuel → 1 ≤ (map_memory map4k fuel paddr pend vaddr).1.length) ∧
    (1 ≤ fuel → pend ≤ paddr → paddr + 4096 < 2 ^ 64 →
      (map_memory map4k fuel paddr pend vaddr).1 =
        [⟨vaddr, paddr, map_flags⟩]) ∧
    (paddr < pend → pend ≤ 2 ^ 64 - 4096 → vaddr < 2 ^ 64 →
      pages paddr pend ≤ fuel →
      (∀ i, i < pages paddr pend →
        map4k ((vaddr + 4096 * i) % 2 ^ 64) (paddr + 4096 * i) map_flags =
          true) →
      (map_memory map4k fuel paddr pend vaddr).1.length = pages paddr pend) := by
  refine ⟨?_, ?_, ?_⟩
  · intro hfuel
    obtain ⟨f, rfl⟩ : ∃ f, fuel = f + 1 := ⟨fuel - 1, by omega⟩
    simp only [map_memory]
    by_cases h1 : map4k vaddr paddr map_flags = false
    · rw [if_pos h1]
      simp
    · rw [if_neg h1]
      by_cases h2 : pend ≤ (paddr + 4096) % 2 ^ 64
      · rw [if_pos h2]
        simp
      · rw [if_neg h2]
        simp
  · intro hfuel hle hnw
    obtain ⟨f, rfl⟩ : ∃ f, fuel = f + 1 := ⟨fuel - 1, by omega⟩
    have hpa : (paddr + 4096) % 2 ^ 64 = paddr + 4096 := Nat.mod_eq_of_lt hnw
    simp only [map_memory]
    by_cases h1 : map4k vaddr paddr map_flags = false
    · rw [if_pos h1]
    · rw [if_neg h1, hpa, if_pos (by omega)]
  · intro hlt hwrap hv hfuel hok
    rw [map_memory_ok_trace map4k fuel paddr pend vaddr hv hlt hwrap hfuel hok]
    simp [mapTrace]

/-- Witness for the amended C10: with the end at or before the start (no
wrap), exactly one page is attempted; on a 3-page range with all calls
succeeding, exactly `ceil(8200 / 4096) = 3` pages are mapped. -/
theorem map_memory_page_count_witness :
    ((1 : Nat) ≤ 1 ∧ (0 : Nat) ≤ 0 ∧ (0 : Nat) + 4096 < 2 ^ 64) ∧
    (map_memory (fun _ _ _ => true) 1 0 0 5).1 = [⟨5, 0, map_flags⟩] ∧
    (map_memory (fun _ _ _ => true) 3 0 8200 0).1.length = pages 0 8200 := by
  refine ⟨⟨le_rfl, le_rfl, by norm_num⟩, ?_, ?_⟩
  · exact (map_memory_page_count (fun _ _ _ => true) 1 0 0 5).2.1 le_rfl
      le_rfl (by norm_num)
  · exact (map_memory_page_count (fun _ _ _ => true) 3 0 8200 0).2.2
      (by norm_num) (by decide) (by norm_num) (by decide) (fun i _ => rfl)
